import Mathlib

/-!
Verification development for the GFF attribute micro-format engine
(GFFFile.py): an order-preserving dictionary, the semicolon-delimited
attribute parser/encoder, the compound-identifier (GFFID) decomposer,
the line classifier / record iterator, and the version-pragma handling
of the in-memory GFF table.

Python 2 byte strings are modelled as `List Char` (`Str`); each Python
helper (`str.strip`, `str.split`, `urllib.quote`, `urllib.unquote`,
`int(...)`) is embedded as an executable Lean function mirroring the
CPython 2.7 semantics actually exercised by the source.
-/

namespace GFFUtils

abbrev Str := List Char

/-! ### Python string primitives -/

/-- Python 2 `str` whitespace: the characters recognised by `str.strip()`. -/
def isPySpace (c : Char) : Bool :=
  c = ' ' || c = '\t' || c = '\n' || c = '\x0b' || c = '\x0c' || c = '\r'

/-- Python `s.strip()`: drop leading and trailing whitespace. -/
def pyStrip (s : Str) : Str :=
  ((s.dropWhile isPySpace).reverse.dropWhile isPySpace).reverse

/-- Python `s.split(sep)` for a one-character separator: `n` separators
yield `n + 1` pieces, so the result is always nonempty ("".split(';') = ['']). -/
def splitOnChar (sep : Char) : Str → List Str
  | [] => [[]]
  | c :: cs =>
    if c = sep then [] :: splitOnChar sep cs
    else
      match splitOnChar sep cs with
      | [] => [[c]]
      | t :: ts => (c :: t) :: ts

/-- Python `sep.join(pieces)` for a one-character separator. -/
def joinSep (sep : Char) : List Str → Str
  | [] => []
  | [x] => x
  | x :: y :: ys => x ++ sep :: joinSep sep (y :: ys)

/-- Python `s.split()` with no argument: split on whitespace runs,
discarding empty pieces. -/
def splitWS (s : Str) : List Str :=
  (s.foldr
    (fun c acc =>
      if isPySpace c then [] :: acc
      else
        match acc with
        | [] => [[c]]
        | t :: ts => (c :: t) :: ts)
    [[]]).filter (· ≠ [])

/-- Python `s.endswith(c)` for a single character. -/
def pyEndsWith (s : Str) (c : Char) : Bool :=
  s.getLast? = some c

/-- Python `s.startswith(p)`. -/
def strStartsWith : Str → Str → Bool
  | _, [] => true
  | [], _ :: _ => false
  | c :: cs, d :: ds => c = d && strStartsWith cs ds

/-- Index of the first occurrence of a character (Python `s.index(c)`,
with `none` standing for the raised `ValueError`). -/
def idxOfChar (c : Char) : Str → Option Nat
  | [] => Option.none
  | d :: ds => if d = c then some 0 else (idxOfChar c ds).map (· + 1)

/-! ### Percent encoding / decoding (`urllib.quote` / `urllib.unquote`) -/

/-- Value of a hexadecimal digit character, if it is one (`urllib._hexdig`). -/
def hexDigitVal (c : Char) : Option Nat :=
  if '0' ≤ c ∧ c ≤ '9' then some (c.toNat - '0'.toNat)
  else if 'a' ≤ c ∧ c ≤ 'f' then some (c.toNat - 'a'.toNat + 10)
  else if 'A' ≤ c ∧ c ≤ 'F' then some (c.toNat - 'A'.toNat + 10)
  else Option.none

/-- Python 2 `urllib.unquote`: split on `%`; each later piece whose first
two characters are hex digits is decoded, otherwise the `%` is kept. -/
def pyUnquote (s : Str) : Str :=
  match splitOnChar '%' s with
  | [] => []
  | b :: bits =>
    b ++ bits.flatMap fun item =>
      match item with
      | c1 :: c2 :: rest =>
        match hexDigitVal c1, hexDigitVal c2 with
        | some h1, some h2 => Char.ofNat (16 * h1 + h2) :: rest
        | _, _ => '%' :: item
      | _ => '%' :: item

/-- Uppercase hexadecimal digit for a value below 16. -/
def toHexUpper (n : Nat) : Char :=
  if n < 10 then Char.ofNat ('0'.toNat + n) else Char.ofNat ('A'.toNat + n - 10)

/-- `urllib.always_safe`: characters `quote` never escapes. -/
def alwaysSafe : Str :=
  ("ABCDEFGHIJKLMNOPQRSTUVWXYZabcdefghijklmnopqrstuvwxyz0123456789_.-").toList

/-- One character of `urllib.quote` output: kept if safe, else `%XX`
(two uppercase hex digits; the source only quotes byte strings, whose
ordinals are below 256). -/
def quoteChar (safe : Str) (c : Char) : Str :=
  if c ∈ alwaysSafe ++ safe then [c]
  else ['%', toHexUpper (c.toNat / 16 % 16), toHexUpper (c.toNat % 16)]

/-- Python 2 `urllib.quote(s, safe)`. -/
def pyQuote (safe : Str) (s : Str) : Str :=
  s.flatMap (quoteChar safe)

/-! ### Python `int(...)` on strings -/

/-- Decimal digit run parse: `some n` when the string is a nonempty
run of decimal digits. -/
def digitsToNat? (s : Str) : Option Nat :=
  if s ≠ [] ∧ s.all (fun c => '0' ≤ c && c ≤ '9') then
    some (s.foldl (fun acc c => acc * 10 + (c.toNat - '0'.toNat)) 0)
  else Option.none

/-- Python `int(s)`: optional surrounding whitespace, optional sign,
nonempty decimal digit run (`none` stands for the raised `ValueError`). -/
def pyInt? (s : Str) : Option Int :=
  match pyStrip s with
  | '+' :: rest => (digitsToNat? rest).map Int.ofNat
  | '-' :: rest => (digitsToNat? rest).map (fun n => -(n : Int))
  | t => (digitsToNat? t).map Int.ofNat

/-- Decimal representation of an integer (Python `"%d" % n`). -/
def intRepr (n : Int) : Str :=
  if n < 0 then '-' :: Nat.toDigits 10 (-n).toNat else Nat.toDigits 10 n.toNat

/-! ### Python values (for the dynamically-typed `encode` argument) -/

/-- The Python values relevant to the `encode` flag protocol. -/
inductive PyVal where
  | bool (b : Bool)
  | int (n : Int)
  | str (s : Str)
  | none
deriving DecidableEq

/-- Python `==` on the modelled values (`True == 1`, `False == 0`). -/
def pyEq : PyVal → PyVal → Bool
  | .bool a, .bool b => a = b
  | .bool a, .int n => (if a then (1 : Int) else 0) = n
  | .int n, .bool a => n = (if a then (1 : Int) else 0)
  | .int m, .int n => m = n
  | .str s, .str t => s = t
  | .none, .none => true
  | _, _ => false

/-- Python truthiness of the modelled values. -/
def pyTruthy : PyVal → Bool
  | .bool b => b
  | .int n => n ≠ 0
  | .str s => s ≠ []
  | .none => false

/-! ### OrderedDictionary -/

/-- `dict` lookup on an association-list model of a Python dict. -/
def dictGet {K V : Type} [DecidableEq K] : List (K × V) → K → Option V
  | [], _ => Option.none
  | (k, v) :: rest, key => if key = k then some v else dictGet rest key

/-- `dict` store: update the value in place if the key is present,
otherwise add the entry. -/
def dictSet {K V : Type} [DecidableEq K] : List (K × V) → K → V → List (K × V)
  | [], key, val => [(key, val)]
  | (k, v) :: rest, key, val =>
    if key = k then (key, val) :: rest else (k, v) :: dictSet rest key val

/-- `dict` deletion of a present key. -/
def dictDel {K V : Type} [DecidableEq K] : List (K × V) → K → List (K × V)
  | [], _ => []
  | (k, v) :: rest, key => if key = k then rest else (k, v) :: dictDel rest key

/-- `OrderedDictionary`: the `__keys` order list plus the `__dict` lookup
table, exactly the two fields of the Python class. -/
structure OrderedDictionary (K V : Type) where
  keys : List K := []
  dict : List (K × V) := []
deriving DecidableEq

namespace OrderedDictionary

variable {K V : Type} [DecidableEq K]

/-- `__getitem__`: guarded by membership of `__keys` (`none` models the
raised `KeyError`). -/
def get (d : OrderedDictionary K V) (key : K) : Option V :=
  if key ∈ d.keys then dictGet d.dict key else Option.none

/-- `__setitem__`: a new key is appended to `__keys`; the value always
goes to `__dict`. -/
def set (d : OrderedDictionary K V) (key : K) (val : V) : OrderedDictionary K V :=
  { keys := if key ∈ d.keys then d.keys else d.keys ++ [key],
    dict := dictSet d.dict key val }

/-- Remove the first occurrence of an element from a list
(`del self.__keys[i]` at the found index). -/
def removeFirst : List K → K → List K
  | [], _ => []
  | k :: rest, key => if k = key then rest else k :: removeFirst rest key

/-- `__delitem__`: removes the key from both the order list and the
lookup table, or fails with `KeyError`. -/
def del (d : OrderedDictionary K V) (key : K) : Except Unit (OrderedDictionary K V) :=
  if key ∈ d.keys then
    .ok { keys := removeFirst d.keys key, dict := dictDel d.dict key }
  else .error ()

/-- `__contains__`. -/
def con (d : OrderedDictionary K V) (key : K) : Bool :=
  key ∈ d.keys

/-- `keys()` (the returned list is a copy; copy-vs-live aliasing is
modelled separately on the heap model below). -/
def keysList (d : OrderedDictionary K V) : List K :=
  d.keys

end OrderedDictionary

/-! ### GFFAttributes -/

/-- `__multivalued_attributes`: keys whose values may hold unescaped commas. -/
def multivalued_attributes : List Str :=
  [("Parent").toList, ("Alias").toList, ("Note").toList,
   ("Dbxref").toList, ("Ontology_term").toList]

/-- The `safe` alphabet passed to `urllib.quote` for multivalued keys. -/
def mvSafe : Str := (" ,:^*$@!+?|").toList

/-- The `safe` alphabet passed to `urllib.quote` for all other keys. -/
def stdSafe : Str := (" :^*$@!+?|").toList

/-- `GFFAttributes`: the inherited ordered dictionary plus the bare-token
list, the encoding flag (a Python value: `encode` stores its argument
verbatim) and the trailing-semicolon flag. -/
structure GFFAttributes extends OrderedDictionary Str Str where
  nokeys : List Str := []
  encode_values : PyVal := .bool true
  trailing_semicolon : Bool := false
deriving DecidableEq

namespace GFFAttributes

/-- `__getitem__` inherited from `OrderedDictionary`. -/
def get (a : GFFAttributes) (key : Str) : Option Str :=
  a.toOrderedDictionary.get key

/-- `__setitem__` inherited from `OrderedDictionary`. -/
def set (a : GFFAttributes) (key val : Str) : GFFAttributes :=
  { a with toOrderedDictionary := a.toOrderedDictionary.set key val }

/-- One iteration of the `__init__` parsing loop on a `;`-separated item. -/
def parseItem (a : GFFAttributes) (item : Str) : GFFAttributes :=
  if item = [] then a
  else
    let kv : Str × Str :=
      match idxOfChar '=' item with
      | some i => (pyStrip (item.take i), pyStrip (item.drop (i + 1)))
      | Option.none => ([], pyStrip item)
    let value := pyUnquote kv.2
    if kv.1 = [] then { a with nokeys := a.nokeys ++ [value] }
    else a.set kv.1 value

/-- `__init__`: split the attribute data on `;`, process each item, and
record whether the data ended with a semicolon.  An empty (falsy) input
skips the whole block. -/
def parse (attribute_data : Str) : GFFAttributes :=
  if attribute_data = [] then {}
  else
    let a := ((splitOnChar ';' attribute_data).foldl parseItem {})
    { a with trailing_semicolon := pyEndsWith attribute_data ';' }

/-- `encode`: query or set the encoding flag.  Mirrors the membership
test `new_setting in (True, False)` (Python `==`, so `1` and `0`
qualify), the `is not None` identity test, and the `ValueError`. -/
def encode (a : GFFAttributes) (new_setting : PyVal) :
    Except Unit (GFFAttributes × PyVal) :=
  if pyEq new_setting (.bool true) || pyEq new_setting (.bool false) then
    .ok ({ a with encode_values := new_setting }, new_setting)
  else if new_setting ≠ .none then
    .error ()
  else
    .ok (a, a.encode_values)

/-- `__escape_value`: percent encoding of a keyed value; multivalued
keys use the relaxed safe set (and the `value` argument), other keys
the standard one (and the current value `self[key]`). -/
def escape_value (a : GFFAttributes) (key value : Str) : Str :=
  if key ∈ multivalued_attributes then pyQuote mvSafe value
  else pyQuote stdSafe ((a.get key).getD [])

/-- `__repr__`: keyed items in order (escaped if the flag is truthy),
then the bare tokens verbatim, then an empty item if the data had a
trailing semicolon; all joined with `;`. -/
def repr (a : GFFAttributes) : Str :=
  let items :=
    if pyTruthy a.encode_values then
      a.keys.map fun k => k ++ '=' :: a.escape_value k ((a.get k).getD [])
    else
      a.keys.map fun k => k ++ '=' :: (a.get k).getD []
  let items := items ++ a.nokeys
  let items := if a.trailing_semicolon then items ++ [[]] else items
  joinSep ';' items

end GFFAttributes

/-! ### GFFID -/

/-- `GFFID`: code / name / numeric index of a compound identifier. -/
structure GFFID where
  code : Str
  name : Str
  index : Int
deriving DecidableEq

namespace GFFID

/-- `__init__`: split on `:`; one piece keeps the whole id as the name,
otherwise pieces 0 and 1 are code and name; a third piece must parse as
an integer (`.error` models the re-raised `ValueError`), further pieces
are ignored. -/
def parse (gff_id : Str) : Except Unit GFFID :=
  let items := splitOnChar ':' gff_id
  let cn : Str × Str :=
    if items.length = 1 then ([], gff_id)
    else (items.getD 0 [], items.getD 1 [])
  if items.length > 2 then
    match pyInt? (items.getD 2 []) with
    | some n => .ok ⟨cn.1, cn.2, n⟩
    | Option.none => .error ()
  else .ok ⟨cn.1, cn.2, 0⟩

/-- `__repr__`: the name alone when the code is empty (falsy), else
`code:name:index`. -/
def repr (g : GFFID) : Str :=
  if g.code = [] then g.name
  else g.code ++ ':' :: g.name ++ ':' :: intRepr g.index

end GFFID

/-! ### Line classification, record iteration, version harvesting -/

/-- The three GFF line types (module constants PRAGMA / COMMENT / ANNOTATION). -/
inductive GFFLineType where
  | pragma
  | comment
  | annotation
deriving DecidableEq

/-- Line classification from `GFFIterator.next`: `##` first, then `#`,
else annotation. -/
def lineType (line : Str) : GFFLineType :=
  if strStartsWith line (("##").toList) then .pragma
  else if strStartsWith line (("#").toList) then .comment
  else GFFLineType.annotation

/-- One record yielded by the iterator: raw line, 1-based line number,
and type tag. -/
structure GFFRecord where
  line : Str
  lineno : Nat
  type : GFFLineType
deriving DecidableEq

/-- `GFFIterator` over an in-memory line source: yields one classified
record per line, with `__lineno` incremented before each yield. -/
def gffIterate (lines : List Str) : List GFFRecord :=
  lines.enum.map fun p => ⟨p.2, p.1 + 1, lineType p.2⟩

/-- The pragma branch of `GFFFile.__init__`: `pragma = str(line)[2:].split()`,
then `pragma[0] == 'gff-version'` selects `pragma[1]` as the version.
`.error` models the `IndexError` on a pragma with too few words. -/
def pragmaStep (ver : Option Str) (line : Str) : Except Unit (Option Str) :=
  match splitWS (line.drop 2) with
  | [] => .error ()
  | w :: ws =>
    if w = ("gff-version").toList then
      match ws with
      | [] => .error ()
      | v :: _ => .ok (some v)
    else .ok ver

/-- One line of the `GFFFile.__init__` loop, restricted to its effect
on the version metadata (the annotation and comment records leave it
unchanged). -/
def versionStep (ver : Option Str) (line : Str) : Except Unit (Option Str) :=
  match lineType line with
  | .pragma => pragmaStep ver line
  | _ => .ok ver

/-- Version metadata produced by draining the iterator in
`GFFFile.__init__`. -/
def gffVersionOf (lines : List Str) : Except Unit (Option Str) :=
  lines.foldlM versionStep Option.none

/-- The `gff-version` value a pragma line carries, if any (declarative
reading of the same branch, used to state which directive wins). -/
def versionDirective (line : Str) : Option Str :=
  if lineType line = .pragma then
    match splitWS (line.drop 2) with
    | w :: v :: _ => if w = ("gff-version").toList then some v else Option.none
    | _ => Option.none
  else Option.none

/-! ### Heap model for list aliasing (`nokeys()` live vs `keys()` copy) -/

/-- A heap of Python list objects holding strings; cells are addressed
by index. -/
abbrev Heap := List (List Str)

/-- Read a heap cell. -/
def heapGet (h : Heap) (r : Nat) : List Str :=
  h.getD r []

/-- Overwrite a heap cell. -/
def heapSet (h : Heap) (r : Nat) (v : List Str) : Heap :=
  h.set r v

/-- The identity of a `GFFAttributes` object's two internal list
objects: `__keys` and `__nokeys` live in heap cells. -/
structure GFFAttributesObj where
  keysCell : Nat
  nokeysCell : Nat
deriving DecidableEq

/-- `nokeys()`: `return self.__nokeys` — the live internal reference. -/
def nokeysMeth (a : GFFAttributesObj) : Nat :=
  a.nokeysCell

/-- `keys()`: `return copy.copy(self.__keys)` — a fresh cell holding a
copy of the current contents. -/
def keysMeth (a : GFFAttributesObj) (h : Heap) : Nat × Heap :=
  (h.length, h ++ [heapGet h a.keysCell])

/-- `lst.append(x)` through a reference. -/
def listAppendRef (h : Heap) (r : Nat) (x : List Char) : Heap :=
  heapSet h r (heapGet h r ++ [x])

/-- `del lst[:]` through a reference. -/
def listClearRef (h : Heap) (r : Nat) : Heap :=
  heapSet h r []

/-- The bare tokens `__repr__` would append: it reads the live
`__nokeys` list object. -/
def reprNokeysPart (a : GFFAttributesObj) (h : Heap) : List Str :=
  heapGet h a.nokeysCell

/-! ### Declarative descriptions used to state the claims -/

/-- Append a key to an order list unless already present: the effect of
one `set` on the key order. -/
def insertNew {K : Type} [DecidableEq K] (l : List K) (k : K) : List K :=
  if k ∈ l then l else l ++ [k]

/-- Keys in order of first occurrence. -/
def firstDedup {K : Type} [DecidableEq K] (l : List K) : List K :=
  l.foldl insertNew []

/-- Position of the first occurrence of an element (length if absent). -/
def firstIdx {K : Type} [DecidableEq K] (k : K) : List K → Nat
  | [] => 0
  | x :: xs => if x = k then 0 else firstIdx k xs + 1

/-- The value of the last assignment to a key in a sequence of
key/value assignments, if any. -/
def lastVal {K V : Type} [DecidableEq K] (ops : List (K × V)) (k : K) : Option V :=
  ((ops.filter fun p => p.1 = k).getLast?).map Prod.snd

/-- An arbitrary sequence of `set` operations applied to a freshly
created (empty) `OrderedDictionary`. -/
def foldSet {K V : Type} [DecidableEq K] (ops : List (K × V)) : OrderedDictionary K V :=
  ops.foldl (fun d p => d.set p.1 p.2) {}

/-- The keyed reading of one attribute segment: present when the
segment carries `=` and the stripped text before the first `=` is
nonempty; the stored value is the stripped, percent-decoded text after
it. -/
def segKV (item : Str) : Option (Str × Str) :=
  match idxOfChar '=' item with
  | some i =>
    let k := pyStrip (item.take i)
    if k = [] then Option.none
    else some (k, pyUnquote (pyStrip (item.drop (i + 1))))
  | Option.none => Option.none

/-- The bare-token reading of one attribute segment: present for a
nonempty segment with no `=` (the stripped, decoded segment) or with an
empty stripped key (the stripped, decoded text after the `=`). -/
def segBare (item : Str) : Option Str :=
  if item = [] then Option.none
  else
    match idxOfChar '=' item with
    | some i =>
      if pyStrip (item.take i) = [] then some (pyUnquote (pyStrip (item.drop (i + 1))))
      else Option.none
    | Option.none => some (pyUnquote (pyStrip item))

/-- The key a segment would store (empty for bare segments). -/
def segKey (seg : Str) : Str :=
  match idxOfChar '=' seg with
  | some i => pyStrip (seg.take i)
  | Option.none => []

/-- The stored (stripped, percent-decoded) value of a segment. -/
def segValue (seg : Str) : Str :=
  match idxOfChar '=' seg with
  | some i => pyUnquote (pyStrip (seg.drop (i + 1)))
  | Option.none => pyUnquote (pyStrip seg)

/-- Whether a segment carries an `=`. -/
def isKeyedSeg (seg : Str) : Bool :=
  (idxOfChar '=' seg).isSome

/-- The `safe` alphabet serialization uses for a given key. -/
def safeFor (k : Str) : Str :=
  if k ∈ multivalued_attributes then mvSafe else stdSafe

/-- A keyed segment that re-serializes to itself: nonempty key, key and
value carry no surrounding whitespace, and the value is canonically
percent-encoded for its key (re-encoding its decoded form reproduces
it). -/
def keyedCanonical (seg : Str) : Bool :=
  match idxOfChar '=' seg with
  | some i =>
    let k := seg.take i
    let v := seg.drop (i + 1)
    k ≠ [] && pyStrip k = k && pyStrip v = v && pyQuote (safeFor k) (pyUnquote v) = v
  | Option.none => false

/-- A bare segment that re-serializes to itself: nonempty, no `=`, no
surrounding whitespace, and no percent-escapes. -/
def bareCanonical (seg : Str) : Bool :=
  seg ≠ [] && (idxOfChar '=' seg) = Option.none
    && pyStrip seg = seg && pyUnquote seg = seg

/-- No-duplicates check on a list of keys. -/
def nodupB {K : Type} [DecidableEq K] : List K → Bool
  | [] => true
  | k :: ks => if k ∈ ks then false else nodupB ks

/-- The canonical-form precondition of the round-trip property: after
splitting on `;` (and discounting the final empty piece of a trailing
semicolon), every keyed segment precedes every bare segment, each
segment individually re-serializes to itself, and no key repeats. -/
def canonAttr (s : Str) : Bool :=
  let segs0 := splitOnChar ';' s
  let segs := if pyEndsWith s ';' then segs0.dropLast else segs0
  let ks := segs.takeWhile isKeyedSeg
  let bs := segs.dropWhile isKeyedSeg
  ks.all keyedCanonical && bs.all bareCanonical && nodupB (ks.map segKey)

/-! ## Claim C10: `nokeys()` is live, `keys()` is a copy -/

/-- C10: `GFFAttributes.nokeys()` returns the live internal bare-token
list object, so appending to it or clearing it changes what later
`nokeys()` observations and serialization see; `keys()` returns a fresh
copy, so mutating it leaves both internal lists of the container
unchanged. -/
theorem nokeys_live_keys_copy (a : GFFAttributesObj) (h : Heap) (x : List Char)
    (hk : a.keysCell < h.length) (hn : a.nokeysCell < h.length) :
    reprNokeysPart a (listAppendRef h (nokeysMeth a) x) = reprNokeysPart a h ++ [x]
    ∧ reprNokeysPart a (listClearRef h (nokeysMeth a)) = []
    ∧ heapGet (listAppendRef (keysMeth a h).2 (keysMeth a h).1 x) a.keysCell
        = heapGet h a.keysCell
    ∧ reprNokeysPart a (listAppendRef (keysMeth a h).2 (keysMeth a h).1 x)
        = reprNokeysPart a h := by
  refine ⟨?_, ?_, ?_, ?_⟩
  · simp [reprNokeysPart, listAppendRef, nokeysMeth, heapSet, heapGet,
      List.getD_eq_getElem?_getD, List.getElem?_set_self, hn]
  · simp [reprNokeysPart, listClearRef, nokeysMeth, heapSet, heapGet,
      List.getD_eq_getElem?_getD, List.getElem?_set_self, hn]
  · have hne : (keysMeth a h).1 ≠ a.keysCell := by
      simp only [keysMeth]; omega
    simp [listAppendRef, keysMeth, heapSet, heapGet,
      List.getD_eq_getElem?_getD, List.getElem?_set_ne hne,
      List.getElem?_append_left hk]
  · have hne : (keysMeth a h).1 ≠ a.nokeysCell := by
      simp only [keysMeth]; omega
    simp [reprNokeysPart, listAppendRef, keysMeth, heapSet, heapGet,
      List.getD_eq_getElem?_getD, List.getElem?_set_ne hne,
      List.getElem?_append_left hn]

/-- C10 witness: a concrete heap with the `__keys` list in cell 0 and
the `__nokeys` list in cell 1. -/
theorem nokeys_live_keys_copy_witness :
    reprNokeysPart ⟨0, 1⟩ (listAppendRef [[("k").toList], [("b").toList]]
        (nokeysMeth ⟨0, 1⟩) (("T").toList))
      = [("b").toList] ++ [("T").toList] :=
  (nokeys_live_keys_copy ⟨0, 1⟩ [[("k").toList], [("b").toList]] (("T").toList)
    (by decide) (by decide)).1

/-! ## Claim C3: the `encode` flag protocol -/

/-- C3 counterexample: the claim says any argument other than the
booleans fails with `InvalidArgument`, but `encode(1)` succeeds — the
Python membership test `new_setting in (True, False)` uses `==`, and
`1 == True`.  The flag is set to the integer `1`. -/
theorem encode_int_one_accepted :
    (GFFAttributes.parse []).encode (.int 1)
      = .ok ({ GFFAttributes.parse [] with encode_values := .int 1 }, .int 1) := by
  rfl

/-- C3 (amended): an argument that compares equal (Python `==`) to
`True` or `False` — which includes the integers `1` and `0` — is stored
as the new flag value and returned; any other non-`None` argument fails
with `InvalidArgument` (and, the call returning no new object, the flag
is unchanged); `None` (the no-argument form) returns the current flag
without change. -/
theorem encode_flag_protocol (a : GFFAttributes) (x : PyVal) :
    ((pyEq x (.bool true) || pyEq x (.bool false)) = true →
      a.encode x = .ok ({ a with encode_values := x }, x))
    ∧ ((pyEq x (.bool true) || pyEq x (.bool false)) = false → x ≠ .none →
      a.encode x = .error ())
    ∧ a.encode .none = .ok (a, a.encode_values) := by
  refine ⟨fun hx => ?_, fun hx hnn => ?_, ?_⟩
  · simp [GFFAttributes.encode, hx]
  · simp [GFFAttributes.encode, hx, hnn]
  · rfl

/-- C3 witness: a string argument is rejected, leaving no new object. -/
theorem encode_flag_protocol_witness :
    (GFFAttributes.parse []).encode (.str (("z").toList)) = .error () :=
  (encode_flag_protocol (GFFAttributes.parse []) (.str (("z").toList))).2.1
    (by decide) (by decide)

/-! ## Claim C4: the escape alphabet of serialization -/

/-- Every character of the standard safe set is also in the relaxed one. -/
theorem stdSafe_subset_mvSafe {c : Char} (hc : c ∈ stdSafe) : c ∈ mvSafe := by
  have hall : stdSafe.all (fun c => decide (c ∈ mvSafe)) = true := by decide
  exact of_decide_eq_true (List.all_eq_true.mp hall c hc)

/-- A character of the relaxed safe set is the comma or standard-safe. -/
theorem mem_mvSafe_elim {c : Char} (hc : c ∈ mvSafe) : c = ',' ∨ c ∈ stdSafe := by
  have hall : mvSafe.all (fun c => decide (c = ',' ∨ c ∈ stdSafe)) = true := by decide
  exact of_decide_eq_true (List.all_eq_true.mp hall c hc)

/-- With the key's stored value in hand, `__escape_value` is
`urllib.quote` with the key's safe alphabet. -/
theorem escape_value_eq_quote (a : GFFAttributes) (k v : Str)
    (hget : a.get k = some v) :
    a.escape_value k v = pyQuote (safeFor k) v := by
  by_cases hm : k ∈ multivalued_attributes
  · simp [GFFAttributes.escape_value, safeFor, hm]
  · simp [GFFAttributes.escape_value, safeFor, hm, GFFAttributes.get] at hget ⊢
    simp [hget]

/-- C4: with encoding on, serialization of a keyed value never escapes
the space or `:^*$@!+?|`; for a multivalued key (Parent, Alias, Note,
Dbxref, Ontology_term) the comma is additionally left unescaped; `;`,
`=` and `%` are percent-escaped, the comma is percent-escaped for every
other key, and so is every character outside the safe alphabet. -/
theorem escape_alphabet (a : GFFAttributes) (k : Str) (c : Char)
    (hget : a.get k = some [c]) :
    (c ∈ stdSafe → a.escape_value k [c] = [c])
    ∧ (k ∈ multivalued_attributes → c = ',' → a.escape_value k [c] = [c])
    ∧ (c = ';' ∨ c = '=' ∨ c = '%' →
      a.escape_value k [c] = ['%', toHexUpper (c.toNat / 16 % 16), toHexUpper (c.toNat % 16)])
    ∧ (k ∉ multivalued_attributes → c = ',' → a.escape_value k [c] = ['%', '2', 'C'])
    ∧ (c ∉ alwaysSafe ++ stdSafe → ¬(k ∈ multivalued_attributes ∧ c = ',') →
      a.escape_value k [c] = ['%', toHexUpper (c.toNat / 16 % 16), toHexUpper (c.toNat % 16)]) := by
  have hq := escape_value_eq_quote a k [c] hget
  have hquote : a.escape_value k [c] = quoteChar (safeFor k) c := by
    simp [hq, pyQuote]
  by_cases hm : k ∈ multivalued_attributes
  · have hsafe : safeFor k = mvSafe := by simp [safeFor, hm]
    rw [hsafe] at hquote
    refine ⟨fun hc => ?_, fun _ hc => ?_, fun hc => ?_, fun hnm => absurd hm hnm, fun hc hnc => ?_⟩
    · rw [hquote, quoteChar, if_pos (List.mem_append.mpr (Or.inr (stdSafe_subset_mvSafe hc)))]
    · subst hc
      rw [hquote]; decide
    · rcases hc with hc | hc | hc <;> (subst hc; rw [hquote]; decide)
    · have hcm : c ∉ alwaysSafe ++ mvSafe := by
        intro hmem
        rcases List.mem_append.mp hmem with h1 | h1
        · exact hc (List.mem_append.mpr (Or.inl h1))
        · rcases mem_mvSafe_elim h1 with h2 | h2
          · exact hnc ⟨hm, h2⟩
          · exact hc (List.mem_append.mpr (Or.inr h2))
      rw [hquote, quoteChar, if_neg hcm]
  · have hsafe : safeFor k = stdSafe := by simp [safeFor, hm]
    rw [hsafe] at hquote
    refine ⟨fun hc => ?_, fun hmm => absurd hmm hm, fun hc => ?_, fun _ hc => ?_, fun hc _ => ?_⟩
    · rw [hquote, quoteChar, if_pos (List.mem_append.mpr (Or.inr hc))]
    · rcases hc with hc | hc | hc <;> (subst hc; rw [hquote]; decide)
    · subst hc
      rw [hquote]; decide
    · rw [hquote, quoteChar, if_neg hc]

/-- C4 witness: a multivalued key keeps its comma unescaped. -/
theorem escape_alphabet_witness :
    (GFFAttributes.parse (("Parent=,").toList)).escape_value (("Parent").toList) [','] = [','] :=
  (escape_alphabet (GFFAttributes.parse (("Parent=,").toList)) (("Parent").toList) ','
    (by decide)).2.1 (by decide) rfl

/-! ## Claim C8: compound identifier parsing and serialization -/

/-- C8: `GFFID` parsing splits on `:`: one piece keeps the whole id as
the name with empty code and index 0; two pieces give code and name
with index 0; three or more give code, name, and the integer parse of
the third piece (further pieces ignored), failing with `ParseError` —
and no identifier — when that piece is not a valid integer.
Serialization emits the name alone for an empty code, else
`code:name:index`. -/
theorem gffid_parse_repr (s : Str) :
    ((splitOnChar ':' s).length = 1 → GFFID.parse s = .ok ⟨[], s, 0⟩)
    ∧ ((splitOnChar ':' s).length = 2 →
      GFFID.parse s = .ok ⟨(splitOnChar ':' s).getD 0 [], (splitOnChar ':' s).getD 1 [], 0⟩)
    ∧ (3 ≤ (splitOnChar ':' s).length →
      ∀ n, pyInt? ((splitOnChar ':' s).getD 2 []) = some n →
        GFFID.parse s = .ok ⟨(splitOnChar ':' s).getD 0 [], (splitOnChar ':' s).getD 1 [], n⟩)
    ∧ (3 ≤ (splitOnChar ':' s).length →
      pyInt? ((splitOnChar ':' s).getD 2 []) = Option.none →
        GFFID.parse s = .error ())
    ∧ (∀ g : GFFID, (g.code = [] → GFFID.repr g = g.name)
      ∧ (g.code ≠ [] → GFFID.repr g = g.code ++ ':' :: g.name ++ ':' :: intRepr g.index)) := by
  refine ⟨fun h1 => ?_, fun h2 => ?_, fun h3 n hn => ?_, fun h3 hn => ?_,
    fun g => ⟨fun hc => ?_, fun hc => ?_⟩⟩
  · simp [GFFID.parse, h1]
  · simp [GFFID.parse, h2]
  · have h2lt : 2 < (splitOnChar ':' s).length := by omega
    have hne1 : ¬(splitOnChar ':' s).length = 1 := by omega
    simp only [List.getD_eq_getElem?_getD, List.getElem?_eq_getElem h2lt,
      Option.getD_some] at hn
    simp [GFFID.parse, hn, h2lt, hne1]
  · have h2lt : 2 < (splitOnChar ':' s).length := by omega
    have hne1 : ¬(splitOnChar ':' s).length = 1 := by omega
    simp only [List.getD_eq_getElem?_getD, List.getElem?_eq_getElem h2lt,
      Option.getD_some] at hn
    simp [GFFID.parse, hn, h2lt, hne1]
  · simp [GFFID.repr, hc]
  · simp [GFFID.repr, hc]

/-- C8 witness: the full identifier of the source's unit test. -/
theorem gffid_parse_repr_witness :
    GFFID.parse (("CDS:XYZ123-A:2").toList)
        = .ok ⟨("CDS").toList, ("XYZ123-A").toList, 2⟩
    ∧ GFFID.repr ⟨("CDS").toList, ("XYZ123-A").toList, 2⟩
        = ("CDS:XYZ123-A:2").toList := by
  constructor
  · have h := (gffid_parse_repr (("CDS:XYZ123-A:2").toList)).2.2.1 (by decide) 2 (by decide)
    simpa using h
  · have h := ((gffid_parse_repr (("CDS:XYZ123-A:2").toList)).2.2.2.2
      ⟨("CDS").toList, ("XYZ123-A").toList, 2⟩).2 (by decide)
    simpa using h

/-! ## Claim C9: prefix classification with precedence, 1-based line numbers -/

/-- A line starting with `##` also starts with `#`. -/
theorem startsWith_hh_h {l : Str} (h : strStartsWith l (("##").toList) = true) :
    strStartsWith l (("#").toList) = true := by
  have e2 : ("##").toList = ['#', '#'] := rfl
  have e1 : ("#").toList = ['#'] := rfl
  rw [e2] at h
  rw [e1]
  match l with
  | [] => simp [strStartsWith] at h
  | c :: cs =>
    simp [strStartsWith] at h ⊢
    exact h.1

/-- C9: every record the iterator yields from position `i` of the line
stream carries line number `i + 1` and the `i`-th raw line, and its
type tag is determined by prefix with precedence: pragma iff the line
starts with `##`, comment iff it starts with `#` but not `##`,
annotation iff it does not start with `#`. -/
theorem iterator_classification (lines : List Str) (i : Nat) (r : GFFRecord)
    (hr : (gffIterate lines)[i]? = some r) :
    r.lineno = i + 1
    ∧ lines[i]? = some r.line
    ∧ (r.type = .pragma ↔ strStartsWith r.line (("##").toList) = true)
    ∧ (r.type = .comment ↔ (strStartsWith r.line (("##").toList) = false
        ∧ strStartsWith r.line (("#").toList) = true))
    ∧ (r.type = GFFLineType.annotation ↔ strStartsWith r.line (("#").toList) = false) := by
  rw [gffIterate, List.getElem?_map, List.getElem?_enum] at hr
  match hl : lines[i]? with
  | Option.none => rw [hl] at hr; simp at hr
  | some l =>
    rw [hl] at hr
    have hr' : some (⟨l, i + 1, lineType l⟩ : GFFRecord) = some r := hr
    obtain rfl := (Option.some_inj.mp hr').symm
    refine ⟨rfl, rfl, ?_⟩
    unfold lineType
    have e2 : ("##").toList = ['#', '#'] := rfl
    have e1 : ("#").toList = ['#'] := rfl
    rw [e2, e1]
    by_cases h2 : strStartsWith l ['#', '#'] = true
    · have h1 : strStartsWith l ['#'] = true := by
        have := startsWith_hh_h (l := l) (by rw [e2]; exact h2)
        rwa [e1] at this
      simp [h2, h1]
    · by_cases h1 : strStartsWith l ['#'] = true
      · rw [Bool.not_eq_true] at h2
        simp [h2, h1]
      · simp only [Bool.not_eq_true] at h2 h1
        simp [h2, h1]

/-- C9 witness: the comment line of a three-line stream is record 2. -/
theorem iterator_classification_witness :
    (⟨("# c").toList, 2, GFFLineType.comment⟩ : GFFRecord).lineno = 1 + 1
    ∧ [("##gff-version 3").toList, ("# c").toList,
        ("a\tb").toList][1]? = some (⟨("# c").toList, 2, GFFLineType.comment⟩ : GFFRecord).line := by
  have h := iterator_classification
    [("##gff-version 3").toList, ("# c").toList, ("a\tb").toList] 1
    ⟨("# c").toList, 2, GFFLineType.comment⟩ (by rfl)
  exact ⟨h.1, h.2.1⟩

/-! ## Claim C2: which `gff-version` directive wins -/

/-- Threading "the last value seen so far" through a fold. -/
theorem foldl_lastChoice {α : Type} (l : List α) (acc : Option α) :
    l.foldl (fun _ v => some v) acc = l.getLast?.elim acc some := by
  induction l generalizing acc with
  | nil => rfl
  | cons x l ih =>
    rw [List.foldl_cons, ih, List.getLast?_cons]
    cases l.getLast? <;> rfl

/-- A successful `versionStep` stores the line's directive, if any. -/
theorem versionStep_ok (acc acc' : Option Str) (line : Str)
    (h : versionStep acc line = .ok acc') :
    acc' = (versionDirective line).elim acc some := by
  match ht : lineType line with
  | .comment =>
    simp only [versionStep, ht] at h
    cases h
    simp [versionDirective, ht]
  | GFFLineType.annotation =>
    simp only [versionStep, ht] at h
    cases h
    simp [versionDirective, ht]
  | .pragma =>
    match hw : splitWS (line.drop 2) with
    | [] =>
      simp only [versionStep, ht, pragmaStep, hw] at h
      exact absurd h (by simp)
    | [w] =>
      simp only [versionStep, ht, pragmaStep, hw] at h
      by_cases hgv : w = ("gff-version").toList
      · rw [if_pos hgv] at h; exact absurd h (by simp)
      · rw [if_neg hgv] at h
        cases h
        simp [versionDirective, ht, hw, hgv]
    | w :: v :: ws =>
      simp only [versionStep, ht, pragmaStep, hw] at h
      have hvd : versionDirective line
          = if w = ("gff-version").toList then some v else Option.none := by
        unfold versionDirective
        rw [ht, hw]
        simp
      by_cases hgv : w = ("gff-version").toList
      · rw [if_pos hgv] at h
        cases h
        rw [hvd, if_pos hgv]
        rfl
      · rw [if_neg hgv] at h
        cases h
        rw [hvd, if_neg hgv]
        rfl

/-- The version fold, with the accumulator generalized: a successful
drain leaves the last harvested directive, or the accumulator if none. -/
theorem versionStep_fold (lines : List Str) (acc r : Option Str)
    (h : lines.foldlM versionStep acc = .ok r) :
    r = (lines.filterMap versionDirective).foldl (fun _ v => some v) acc := by
  induction lines generalizing acc with
  | nil =>
    simp only [List.foldlM_nil, pure, Except.pure] at h
    cases h
    rfl
  | cons line rest ih =>
    rw [List.foldlM_cons] at h
    match hs : versionStep acc line with
    | .error e => rw [hs] at h; simp [Bind.bind, Except.bind] at h
    | .ok acc' =>
      rw [hs] at h
      simp only [Bind.bind, Except.bind] at h
      have hrec := ih acc' h
      have hd := versionStep_ok acc acc' line hs
      rw [List.filterMap_cons]
      cases hv : versionDirective line with
      | none =>
        rw [hv] at hd
        simp only [Option.elim_none] at hd
        subst hd
        exact hrec
      | some v =>
        rw [hv] at hd
        simp only [Option.elim_some] at hd
        subst hd
        simpa using hrec

/-- C2 counterexample: with two `gff-version` pragmas the table's
version is the value of the second directive, not the first — the
assignment in `GFFFile.__init__` runs for every matching pragma, so
later directives overwrite earlier ones. -/
theorem gff_version_not_first :
    gffVersionOf [("##gff-version 3").toList, ("##gff-version 2").toList]
        = .ok (some (("2").toList))
    ∧ (("2").toList : Str) ≠ ("3").toList :=
  ⟨rfl, by decide⟩

/-- C2 (amended): when the table is built from a record stream, the
version metadata equals the value of the *last* `gff-version` pragma
directive — every matching directive overwrites the stored version
(and `none` is kept when no directive occurs). -/
theorem gff_version_last_directive (lines : List Str) (r : Option Str)
    (h : gffVersionOf lines = .ok r) :
    r = (lines.filterMap versionDirective).getLast? := by
  have hf := versionStep_fold lines Option.none r h
  rw [hf, foldl_lastChoice]
  cases (lines.filterMap versionDirective).getLast? <;> rfl

/-- C2 witness: a three-line stream whose two directives resolve to the
later value. -/
theorem gff_version_last_directive_witness :
    (some (("2").toList) : Option Str)
      = ([("##gff-version 3").toList, ("#x").toList,
          ("##gff-version 2").toList].filterMap versionDirective).getLast? :=
  gff_version_last_directive _ _ rfl

/-! ## Claim C7: OrderedDictionary key-order invariants -/

section OrderedDictionaryInvariants

variable {K V : Type} [DecidableEq K]

theorem mem_insertNew {l : List K} {x k : K} :
    k ∈ insertNew l x ↔ k ∈ l ∨ k = x := by
  unfold insertNew
  by_cases hx : x ∈ l
  · rw [if_pos hx]
    constructor
    · exact Or.inl
    · rintro (h | rfl)
      · exact h
      · exact hx
  · rw [if_neg hx]
    simp

theorem nodup_insertNew {l : List K} (h : l.Nodup) (x : K) :
    (insertNew l x).Nodup := by
  unfold insertNew
  by_cases hx : x ∈ l
  · rwa [if_pos hx]
  · rw [if_neg hx]
    simp [List.nodup_append, h, hx]

theorem firstIdx_lt_length {k : K} {l : List K} :
    firstIdx k l < l.length ↔ k ∈ l := by
  induction l with
  | nil => simp [firstIdx]
  | cons x xs ih =>
    by_cases hx : x = k
    · subst hx
      simp [firstIdx]
    · rw [List.mem_cons]
      simp only [firstIdx, if_neg hx, List.length_cons]
      constructor
      · intro h
        right
        exact ih.mp (by omega)
      · rintro (rfl | h)
        · exact absurd rfl hx
        · have := ih.mpr h
          omega

theorem firstIdx_append_left {k : K} {l : List K} (h : k ∈ l) (t : List K) :
    firstIdx k (l ++ t) = firstIdx k l := by
  induction l with
  | nil => cases h
  | cons x xs ih =>
    by_cases hx : x = k
    · simp [firstIdx, hx]
    · have hxs : k ∈ xs := by
        rcases List.mem_cons.mp h with rfl | h'
        · exact absurd rfl hx
        · exact h'
      simp only [List.cons_append, firstIdx, if_neg hx, List.append_eq]
      rw [ih hxs]

theorem firstIdx_append_right {k : K} {l : List K} (h : k ∉ l) (t : List K) :
    firstIdx k (l ++ t) = l.length + firstIdx k t := by
  induction l with
  | nil => simp
  | cons x xs ih =>
    have hx : ¬x = k := fun e => h (by rw [e]; exact List.mem_cons_self k xs)
    have hxs : k ∉ xs := fun e => h (List.mem_cons_of_mem _ e)
    simp only [List.cons_append, firstIdx, if_neg hx, List.append_eq, ih hxs,
      List.length_cons]
    omega

theorem foldl_set_keys (d : OrderedDictionary K V) (ops : List (K × V)) :
    (ops.foldl (fun d p => d.set p.1 p.2) d).keys
      = (ops.map Prod.fst).foldl insertNew d.keys := by
  induction ops generalizing d with
  | nil => rfl
  | cons p rest ih =>
    simp only [List.foldl_cons, List.map_cons]
    rw [ih]
    rfl

theorem mem_foldl_insertNew (acc l : List K) (k : K) :
    k ∈ l.foldl insertNew acc ↔ k ∈ acc ∨ k ∈ l := by
  induction l generalizing acc with
  | nil => simp
  | cons x xs ih =>
    rw [List.foldl_cons, ih, mem_insertNew, List.mem_cons]
    constructor
    · rintro ((h | rfl) | h)
      · exact Or.inl h
      · exact Or.inr (Or.inl rfl)
      · exact Or.inr (Or.inr h)
    · rintro (h | rfl | h)
      · exact Or.inl (Or.inl h)
      · exact Or.inl (Or.inr rfl)
      · exact Or.inr h

theorem nodup_foldl_insertNew (acc l : List K) (h : acc.Nodup) :
    (l.foldl insertNew acc).Nodup := by
  induction l generalizing acc with
  | nil => exact h
  | cons x xs ih => exact ih _ (nodup_insertNew h x)

theorem firstDedup_pairwise (l : List K) :
    (firstDedup l).Pairwise (fun a b => firstIdx a l < firstIdx b l) := by
  induction l using List.reverseRecOn with
  | nil => simp [firstDedup]
  | append_singleton l x ih =>
    have hD : firstDedup (l ++ [x]) = insertNew (firstDedup l) x := by
      unfold firstDedup
      rw [List.foldl_append, List.foldl_cons, List.foldl_nil]
    have hmemD : ∀ a, a ∈ firstDedup l ↔ a ∈ l := by
      intro a
      unfold firstDedup
      rw [mem_foldl_insertNew]
      simp
    rw [hD]
    unfold insertNew
    by_cases hx : x ∈ firstDedup l
    · rw [if_pos hx]
      refine ih.imp_of_mem ?_
      intro a b ha hb hab
      rw [firstIdx_append_left ((hmemD a).mp ha),
        firstIdx_append_left ((hmemD b).mp hb)]
      exact hab
    · rw [if_neg hx]
      rw [List.pairwise_append]
      refine ⟨?_, List.pairwise_singleton _ _, ?_⟩
      · refine ih.imp_of_mem ?_
        intro a b ha hb hab
        rw [firstIdx_append_left ((hmemD a).mp ha),
          firstIdx_append_left ((hmemD b).mp hb)]
        exact hab
      · intro a ha b hb
        rw [List.mem_singleton] at hb
        subst hb
        have hal : a ∈ l := (hmemD a).mp ha
        have hxl : b ∉ l := fun e => hx ((hmemD b).mpr e)
        rw [firstIdx_append_left hal, firstIdx_append_right hxl]
        have h1 : firstIdx a l < l.length := firstIdx_lt_length.mpr hal
        omega

theorem dictGet_dictSet_self (d : List (K × V)) (k : K) (v : V) :
    dictGet (dictSet d k v) k = some v := by
  induction d with
  | nil => simp [dictSet, dictGet]
  | cons p rest ih =>
    obtain ⟨k0, v0⟩ := p
    by_cases hk : k = k0
    · simp [dictSet, hk, dictGet]
    · simp [dictSet, hk, dictGet, ih]

theorem dictGet_dictSet_ne (d : List (K × V)) {k k' : K} (h : ¬k' = k) (v : V) :
    dictGet (dictSet d k v) k' = dictGet d k' := by
  induction d with
  | nil => simp [dictSet, dictGet, h]
  | cons p rest ih =>
    obtain ⟨k0, v0⟩ := p
    by_cases hk : k = k0
    · subst hk
      simp [dictSet, dictGet, h]
    · simp [dictSet, hk, dictGet, ih]

theorem foldl_set_dictGet (d : OrderedDictionary K V) (ops : List (K × V)) (k : K) :
    dictGet (ops.foldl (fun d p => d.set p.1 p.2) d).dict k
      = ((ops.filter fun p => p.1 = k).getLast?).elim
          (dictGet d.dict k) (fun p => some p.2) := by
  induction ops generalizing d with
  | nil => rfl
  | cons p rest ih =>
    obtain ⟨k0, v0⟩ := p
    rw [List.foldl_cons, ih, List.filter_cons]
    by_cases hk : k0 = k
    · rw [if_pos (by simpa using hk)]
      have hset : dictGet (d.set k0 v0).dict k = some v0 := by
        subst hk
        exact dictGet_dictSet_self d.dict k0 v0
      rw [List.getLast?_cons]
      cases hfr : (rest.filter fun p => p.1 = k).getLast? with
      | none => simp [hfr, hset]
      | some q => simp [hfr]
    · rw [if_neg (by simpa using hk)]
      have hset : dictGet (d.set k0 v0).dict k = dictGet d.dict k :=
        dictGet_dictSet_ne d.dict (fun e => hk e.symm) v0
      rw [hset]

theorem lastVal_isSome_iff (ops : List (K × V)) (k : K) :
    (lastVal ops k).isSome = true ↔ k ∈ ops.map Prod.fst := by
  unfold lastVal
  rw [Option.isSome_map']
  rw [List.getLast?_isSome]
  constructor
  · intro h
    rcases List.exists_mem_of_ne_nil _ h with ⟨p, hp⟩
    have := List.mem_filter.mp hp
    exact List.mem_map.mpr ⟨p, this.1, of_decide_eq_true this.2⟩
  · intro h
    rcases List.mem_map.mp h with ⟨p, hp, hpk⟩
    intro hnil
    have : p ∈ ops.filter fun p => p.1 = k :=
      List.mem_filter.mpr ⟨hp, decide_eq_true hpk⟩
    rw [hnil] at this
    cases this

/-- C7: for every sequence of `set` operations applied to a fresh
`OrderedDictionary`, `keys()` holds each inserted key exactly once, in
strictly increasing order of first insertion (re-setting an existing
key leaves the key list unchanged, so positions never move), the
stored value of each key is the one from its last assignment, and the
ordered key sequence and the lookup table always contain the same key
set. -/
theorem ordered_dictionary_set_invariants (ops : List (K × V)) :
    (foldSet ops).keys.Nodup
    ∧ (∀ k, k ∈ (foldSet ops).keys ↔ k ∈ ops.map Prod.fst)
    ∧ (foldSet ops).keys.Pairwise
        (fun a b => firstIdx a (ops.map Prod.fst) < firstIdx b (ops.map Prod.fst))
    ∧ (∀ k v, k ∈ (foldSet ops).keys → ((foldSet ops).set k v).keys = (foldSet ops).keys)
    ∧ (∀ k, dictGet (foldSet ops).dict k = lastVal ops k)
    ∧ (∀ k, k ∈ (foldSet ops).keys ↔ (dictGet (foldSet ops).dict k).isSome = true) := by
  have hkeys : (foldSet ops).keys = firstDedup (ops.map Prod.fst) := by
    unfold foldSet firstDedup
    exact foldl_set_keys {} ops
  have hmem : ∀ k, k ∈ (foldSet ops).keys ↔ k ∈ ops.map Prod.fst := by
    intro k
    rw [hkeys]
    unfold firstDedup
    rw [mem_foldl_insertNew]
    simp
  have hval : ∀ k, dictGet (foldSet ops).dict k = lastVal ops k := by
    intro k
    have h := foldl_set_dictGet ({} : OrderedDictionary K V) ops k
    unfold foldSet
    rw [h]
    unfold lastVal
    cases hl : (ops.filter fun p => p.1 = k).getLast? with
    | none => rfl
    | some q => rfl
  refine ⟨?_, hmem, ?_, ?_, hval, ?_⟩
  · rw [hkeys]
    exact nodup_foldl_insertNew [] _ List.nodup_nil
  · rw [hkeys]
    exact firstDedup_pairwise _
  · intro k v hk
    simp [OrderedDictionary.set, hk]
  · intro k
    rw [hval k, lastVal_isSome_iff]
    exact hmem k

end OrderedDictionaryInvariants

/-- C7 witness: three sets with a repeated key keep first-insertion
order, and re-setting the repeated key moves nothing. -/
theorem ordered_dictionary_set_invariants_witness :
    ((foldSet [(("a").toList, (1 : Nat)), (("b").toList, 2), (("a").toList, 3)]).set
        (("a").toList) 9).keys
      = (foldSet [(("a").toList, (1 : Nat)), (("b").toList, 2), (("a").toList, 3)]).keys :=
  (ordered_dictionary_set_invariants _).2.2.2.1 (("a").toList) 9 (by decide)

/-! ## Splitting and joining -/

theorem splitOnChar_ne_nil (sep : Char) (s : Str) : splitOnChar sep s ≠ [] := by
  cases s with
  | nil => simp [splitOnChar]
  | cons c cs =>
    unfold splitOnChar
    by_cases h : c = sep
    · simp [h]
    · rw [if_neg h]
      cases splitOnChar sep cs <;> simp

theorem joinSep_cons (sep : Char) (x : Str) (xs : List Str) :
    joinSep sep (x :: xs) = x ++ (if xs = [] then [] else sep :: joinSep sep xs) := by
  cases xs with
  | nil => simp [joinSep]
  | cons y ys => simp [joinSep]

theorem joinSep_splitOnChar (sep : Char) (s : Str) :
    joinSep sep (splitOnChar sep s) = s := by
  induction s with
  | nil => rfl
  | cons c cs ih =>
    unfold splitOnChar
    by_cases h : c = sep
    · rw [if_pos h, joinSep_cons, if_neg (splitOnChar_ne_nil sep cs), ih, h]
      rfl
    · rw [if_neg h]
      cases hsp : splitOnChar sep cs with
      | nil => exact absurd hsp (splitOnChar_ne_nil sep cs)
      | cons t ts =>
        rw [hsp] at ih
        rw [joinSep_cons] at ih
        rw [joinSep_cons, List.cons_append]
        exact congrArg (c :: ·) ih

theorem splitOnChar_append_sep (sep : Char) (s : Str) :
    splitOnChar sep (s ++ [sep]) = splitOnChar sep s ++ [[]] := by
  induction s with
  | nil => simp [splitOnChar]
  | cons c cs ih =>
    rw [List.cons_append]
    unfold splitOnChar
    by_cases h : c = sep
    · rw [if_pos h, if_pos h, ih]
      rfl
    · rw [if_neg h, if_neg h, ih]
      cases hsp : splitOnChar sep cs with
      | nil => exact absurd hsp (splitOnChar_ne_nil sep cs)
      | cons t ts => rfl

theorem pyEndsWith_decomp {s : Str} {c : Char} (h : pyEndsWith s c = true) :
    s.dropLast ++ [c] = s := by
  have h' : s.getLast? = some c := by
    have h2 := h
    unfold pyEndsWith at h2
    exact of_decide_eq_true h2
  have hne : s ≠ [] := by
    intro e
    subst e
    simp at h'
  have hl := List.dropLast_append_getLast hne
  have hgl : s.getLast hne = c := by
    rw [List.getLast?_eq_getLast s hne] at h'
    simpa using h'
  rw [hgl] at hl
  exact hl

theorem nodupB_iff {K : Type} [DecidableEq K] (l : List K) :
    nodupB l = true ↔ l.Nodup := by
  induction l with
  | nil => simp [nodupB]
  | cons x xs ih =>
    by_cases hx : x ∈ xs
    · simp [nodupB, hx]
    · simp [nodupB, hx, ih]

theorem foldl_insertNew_eq_append {K : Type} [DecidableEq K] (l : List K)
    (hn : l.Nodup) :
    ∀ acc, (∀ x ∈ l, x ∉ acc) → l.foldl insertNew acc = acc ++ l := by
  induction l with
  | nil => intro acc _; simp
  | cons x xs ih =>
    intro acc hd
    rw [List.foldl_cons]
    have hx : x ∉ acc := hd x (List.mem_cons_self x xs)
    have hins : insertNew acc x = acc ++ [x] := by
      unfold insertNew
      rw [if_neg hx]
    have hd' : ∀ y ∈ xs, y ∉ acc ++ [x] := by
      intro y hy hmem
      rcases List.mem_append.mp hmem with h1 | h1
      · exact hd y (List.mem_cons_of_mem _ hy) h1
      · rw [List.mem_singleton] at h1
        subst h1
        exact (List.nodup_cons.mp hn).1 hy
    rw [hins, ih (List.nodup_cons.mp hn).2 (acc ++ [x]) hd', List.append_assoc]
    rfl

/-! ## The `__init__` parsing loop, segment by segment -/

theorem parseItem_cases (a : GFFAttributes) (item : Str) :
    (segKV item = Option.none ∧ segBare item = Option.none ∧ a.parseItem item = a)
    ∨ (∃ k v, segKV item = some (k, v) ∧ segBare item = Option.none
        ∧ a.parseItem item = a.set k v)
    ∨ (∃ b, segKV item = Option.none ∧ segBare item = some b
        ∧ a.parseItem item = { a with nokeys := a.nokeys ++ [b] }) := by
  by_cases hne : item = []
  · subst hne
    left
    refine ⟨rfl, rfl, ?_⟩
    unfold GFFAttributes.parseItem
    rw [if_pos rfl]
  · cases hidx : idxOfChar '=' item with
    | none =>
      right; right
      refine ⟨pyUnquote (pyStrip item), ?_, ?_, ?_⟩
      · unfold segKV
        rw [hidx]
      · unfold segBare
        rw [if_neg hne, hidx]
      · simp [GFFAttributes.parseItem, hne, hidx]
    | some i =>
      by_cases hk : pyStrip (item.take i) = []
      · right; right
        refine ⟨pyUnquote (pyStrip (item.drop (i + 1))), ?_, ?_, ?_⟩
        · simp [segKV, hidx, hk]
        · simp [segBare, hne, hidx, hk]
        · simp [GFFAttributes.parseItem, hne, hidx, hk]
      · right; left
        refine ⟨pyStrip (item.take i), pyUnquote (pyStrip (item.drop (i + 1))), ?_, ?_, ?_⟩
        · simp [segKV, hidx, hk]
        · simp [segBare, hne, hidx, hk]
        · simp [GFFAttributes.parseItem, hne, hidx, hk]

theorem foldl_parseItem_flags (a : GFFAttributes) (segs : List Str) :
    (segs.foldl GFFAttributes.parseItem a).encode_values = a.encode_values
    ∧ (segs.foldl GFFAttributes.parseItem a).trailing_semicolon = a.trailing_semicolon := by
  induction segs generalizing a with
  | nil => exact ⟨rfl, rfl⟩
  | cons item rest ih =>
    rw [List.foldl_cons]
    rcases parseItem_cases a item with ⟨_, _, he⟩ | ⟨k, v, _, _, he⟩ | ⟨b, _, _, he⟩ <;>
      rw [he] <;> exact ih _

theorem foldl_parseItem_nokeys (a : GFFAttributes) (segs : List Str) :
    (segs.foldl GFFAttributes.parseItem a).nokeys
      = a.nokeys ++ segs.filterMap segBare := by
  induction segs generalizing a with
  | nil => simp
  | cons item rest ih =>
    rw [List.foldl_cons, List.filterMap_cons]
    rcases parseItem_cases a item with ⟨hkv, hb, he⟩ | ⟨k, v, hkv, hb, he⟩ | ⟨b, hkv, hb, he⟩
    · rw [hb, he, ih]
    · rw [hb, he, ih]
      rfl
    · rw [hb, he, ih]
      simp

theorem foldl_parseItem_keys (a : GFFAttributes) (segs : List Str) :
    (segs.foldl GFFAttributes.parseItem a).keys
      = ((segs.filterMap segKV).map Prod.fst).foldl insertNew a.keys := by
  induction segs generalizing a with
  | nil => rfl
  | cons item rest ih =>
    rw [List.foldl_cons, List.filterMap_cons]
    rcases parseItem_cases a item with ⟨hkv, hb, he⟩ | ⟨k, v, hkv, hb, he⟩ | ⟨b, hkv, hb, he⟩
    · rw [hkv, he, ih]
    · rw [hkv, he, ih]
      rfl
    · rw [hkv, he, ih]

theorem od_get_set_self {K V : Type} [DecidableEq K]
    (d : OrderedDictionary K V) (k : K) (v : V) :
    (d.set k v).get k = some v := by
  have hk : k ∈ (d.set k v).keys := by
    unfold OrderedDictionary.set
    by_cases h : k ∈ d.keys
    · simp [h]
    · simp [h]
  unfold OrderedDictionary.get
  rw [if_pos hk]
  exact dictGet_dictSet_self d.dict k v

theorem od_get_set_ne {K V : Type} [DecidableEq K]
    (d : OrderedDictionary K V) {k k' : K} (h : ¬k' = k) (v : V) :
    (d.set k v).get k' = d.get k' := by
  have hmem : k' ∈ (d.set k v).keys ↔ k' ∈ d.keys := by
    unfold OrderedDictionary.set
    by_cases hk : k ∈ d.keys
    · simp [hk]
    · simp [hk, h]
  unfold OrderedDictionary.get
  by_cases hm : k' ∈ d.keys
  · rw [if_pos (hmem.mpr hm), if_pos hm]
    exact dictGet_dictSet_ne d.dict h v
  · rw [if_neg (fun hh => hm (hmem.mp hh)), if_neg hm]

theorem gffa_get_set_self (a : GFFAttributes) (k v : Str) :
    (a.set k v).get k = some v :=
  od_get_set_self a.toOrderedDictionary k v

theorem gffa_get_set_ne (a : GFFAttributes) {k k' : Str} (h : ¬k' = k) (v : Str) :
    (a.set k v).get k' = a.get k' :=
  od_get_set_ne a.toOrderedDictionary h v

theorem foldl_parseItem_get (a : GFFAttributes) (segs : List Str) (k : Str) :
    (segs.foldl GFFAttributes.parseItem a).get k
      = (((segs.filterMap segKV).filter fun p => p.1 = k).getLast?).elim
          (a.get k) (fun p => some p.2) := by
  induction segs generalizing a with
  | nil => rfl
  | cons item rest ih =>
    rw [List.foldl_cons, List.filterMap_cons]
    rcases parseItem_cases a item with ⟨hkv, hb, he⟩ | ⟨k0, v0, hkv, hb, he⟩ | ⟨b, hkv, hb, he⟩
    · rw [hkv, he, ih]
    · rw [hkv, he, ih, List.filter_cons]
      by_cases hk : k0 = k
      · rw [if_pos (by simpa using hk)]
        rw [List.getLast?_cons]
        cases hfr : ((rest.filterMap segKV).filter fun p => p.1 = k).getLast? with
        | none =>
          simp only [hfr, Option.getD_none, Option.elim_none, Option.elim_some]
          subst hk
          exact gffa_get_set_self a k0 v0
        | some q =>
          simp only [hfr, Option.getD_some, Option.elim_some]
      · rw [if_neg (by simpa using hk)]
        rw [gffa_get_set_ne a (fun e => hk e.symm) v0]
    · rw [he, ih]
      simp only [hkv]
      rfl

/-! ## Segment shapes -/

theorem take_eq_of_idxOfChar {c : Char} :
    ∀ {s : Str} {i : Nat}, idxOfChar c s = some i →
      s.take i ++ c :: s.drop (i + 1) = s := by
  intro s
  induction s with
  | nil => intro i h; cases h
  | cons d ds ih =>
    intro i h
    unfold idxOfChar at h
    by_cases hd : d = c
    · rw [if_pos hd] at h
      have h' : some 0 = some i := h
      cases h'
      subst hd
      rfl
    · rw [if_neg hd] at h
      cases hj : idxOfChar c ds with
      | none => rw [hj] at h; cases h
      | some j =>
        rw [hj] at h
        have h' : some (j + 1) = some i := h
        cases h'
        simp only [List.take_succ_cons, List.drop_succ_cons, List.cons_append]
        exact congrArg (d :: ·) (ih hj)

theorem idxOfChar_nil_ne {c : Char} {s : Str} {i : Nat}
    (h : idxOfChar c s = some i) : s ≠ [] := by
  intro e
  subst e
  cases h

/-- What a canonical keyed segment parses to, and that re-emitting the
key with its canonically escaped stored value rebuilds the segment. -/
theorem keyedCanonical_spec {seg : Str} (h : keyedCanonical seg = true) :
    segKV seg = some (segKey seg, segValue seg)
    ∧ segBare seg = Option.none
    ∧ segKey seg ≠ []
    ∧ segKey seg ++ '=' :: pyQuote (safeFor (segKey seg)) (segValue seg) = seg := by
  unfold keyedCanonical at h
  cases hidx : idxOfChar '=' seg with
  | none => rw [hidx] at h; cases h
  | some i =>
    rw [hidx] at h
    simp only [Bool.and_eq_true, decide_eq_true_eq] at h
    obtain ⟨⟨⟨hne, hsk⟩, hsv⟩, hq⟩ := h
    have hsegne : seg ≠ [] := idxOfChar_nil_ne hidx
    have hkey : segKey seg = seg.take i := by
      unfold segKey
      rw [hidx]
      exact hsk
    have hval : segValue seg = pyUnquote (seg.drop (i + 1)) := by
      unfold segValue
      rw [hidx]
      exact congrArg pyUnquote hsv
    refine ⟨?_, ?_, ?_, ?_⟩
    · unfold segKV
      rw [hidx]
      show (if pyStrip (seg.take i) = [] then Option.none
          else some (pyStrip (seg.take i), pyUnquote (pyStrip (seg.drop (i + 1)))))
        = some (segKey seg, segValue seg)
      rw [hsk, if_neg hne, hsv, hkey, hval]
    · unfold segBare
      rw [if_neg hsegne, hidx]
      show (if pyStrip (seg.take i) = [] then some (pyUnquote (pyStrip (seg.drop (i + 1))))
          else Option.none) = Option.none
      rw [hsk, if_neg hne]
    · rw [hkey]
      exact hne
    · rw [hkey, hval, hq]
      exact take_eq_of_idxOfChar hidx

/-- What a canonical bare segment parses to. -/
theorem bareCanonical_spec {seg : Str} (h : bareCanonical seg = true) :
    segKV seg = Option.none ∧ segBare seg = some seg ∧ isKeyedSeg seg = false := by
  unfold bareCanonical at h
  simp only [Bool.and_eq_true, decide_eq_true_eq] at h
  obtain ⟨⟨⟨hne, hidx⟩, hst⟩, hq⟩ := h
  refine ⟨?_, ?_, ?_⟩
  · unfold segKV
    rw [hidx]
  · unfold segBare
    rw [if_neg hne, hidx, hst, hq]
  · unfold isKeyedSeg
    rw [hidx]
    rfl

theorem filterMap_eq_map_of_forall {α β : Type} {f : α → Option β} {g : α → β} :
    ∀ {l : List α}, (∀ x ∈ l, f x = some (g x)) → l.filterMap f = l.map g := by
  intro l
  induction l with
  | nil => intro _; rfl
  | cons x xs ih =>
    intro hf
    rw [List.filterMap_cons, hf x (List.mem_cons_self x xs), List.map_cons,
      ih fun y hy => hf y (List.mem_cons_of_mem _ hy)]

theorem filterMap_eq_nil_of_forall {α β : Type} {f : α → Option β} :
    ∀ {l : List α}, (∀ x ∈ l, f x = Option.none) → l.filterMap f = [] := by
  intro l
  induction l with
  | nil => intro _; rfl
  | cons x xs ih =>
    intro hf
    rw [List.filterMap_cons, hf x (List.mem_cons_self x xs),
      ih fun y hy => hf y (List.mem_cons_of_mem _ hy)]

theorem getLast?_filter_of_nodup {K V : Type} [DecidableEq K] :
    ∀ {l : List (K × V)}, (l.map Prod.fst).Nodup →
      ∀ {k : K} {v : V}, (k, v) ∈ l →
        (l.filter fun p => p.1 = k).getLast? = some (k, v) := by
  intro l
  induction l with
  | nil => intro _ k v h; cases h
  | cons p rest ih =>
    intro hn k v hm
    obtain ⟨k0, v0⟩ := p
    rw [List.map_cons] at hn
    have hn' := List.nodup_cons.mp hn
    rcases List.mem_cons.mp hm with he | hmr
    · rw [Prod.mk.injEq] at he
      obtain ⟨rfl, rfl⟩ := he
      rw [List.filter_cons, if_pos (by simp)]
      have hfr : rest.filter (fun p => p.1 = k) = [] := by
        rw [List.filter_eq_nil_iff]
        intro q hq
        simp only [decide_eq_true_eq]
        intro hq1
        have hmm : q.1 ∈ rest.map Prod.fst := List.mem_map_of_mem Prod.fst hq
        rw [hq1] at hmm
        exact hn'.1 hmm
      rw [hfr]
      rfl
    · have hk0 : ¬k = k0 := by
        intro e
        have hmm : k ∈ rest.map Prod.fst := List.mem_map_of_mem Prod.fst hmr
        rw [e] at hmm
        exact hn'.1 hmm
      rw [List.filter_cons,
        if_neg (by simp only [decide_eq_true_eq]; exact fun e => hk0 e.symm)]
      exact ih hn'.2 hmr

/-! ## Serialization shape -/

theorem pyEndsWith_append_cons (x t : Str) (sep : Char)
    (h : pyEndsWith t sep = true ∨ t = []) :
    pyEndsWith (x ++ sep :: t) sep = true := by
  unfold pyEndsWith at h ⊢
  rw [List.getLast?_append_cons, List.getLast?_cons]
  rcases h with h | rfl
  · have h' : t.getLast? = some sep := of_decide_eq_true h
    rw [h']
    simp
  · simp

theorem pyEndsWith_joinSep_append_nil (sep : Char) :
    ∀ (l : List Str), l ≠ [] →
      pyEndsWith (joinSep sep (l ++ [[]])) sep = true := by
  intro l
  induction l with
  | nil => intro h; exact absurd rfl h
  | cons x xs ih =>
    intro _
    cases hxs : xs with
    | nil =>
      rw [List.cons_append, joinSep_cons, if_neg (by simp)]
      exact pyEndsWith_append_cons x (joinSep sep ([] ++ [[]])) sep (Or.inr rfl)
    | cons y ys =>
      rw [List.cons_append, joinSep_cons, if_neg (by simp)]
      subst hxs
      exact pyEndsWith_append_cons x _ sep (Or.inl (ih (by simp)))

theorem keys_with_trailing (a : GFFAttributes) (t : Bool) :
    ({ a with trailing_semicolon := t }).keys = a.keys := rfl

theorem nokeys_with_trailing (a : GFFAttributes) (t : Bool) :
    ({ a with trailing_semicolon := t }).nokeys = a.nokeys := rfl

theorem get_with_trailing (a : GFFAttributes) (t : Bool) (k : Str) :
    ({ a with trailing_semicolon := t }).get k = a.get k := rfl

theorem encode_values_with_trailing (a : GFFAttributes) (t : Bool) :
    ({ a with trailing_semicolon := t }).encode_values = a.encode_values := rfl

/-- `parse` of a nonempty string, written as the fold over segments. -/
theorem parse_eq_fold {s : Str} (hs : s ≠ []) :
    GFFAttributes.parse s
      = { (splitOnChar ';' s).foldl GFFAttributes.parseItem {} with
          trailing_semicolon := pyEndsWith s ';' } := by
  unfold GFFAttributes.parse
  rw [if_neg hs]

/-! ## Claim C5: the segment grammar of parsing -/

/-- C5 counterexample: a segment that contains `=` but whose stripped
key is empty does not become a keyed token with key `''` as the claim
prescribes — its decoded value is appended to the bare-token list. -/
theorem parse_empty_key_segment_is_bare :
    (GFFAttributes.parse (['=', 'x'])).keys = []
    ∧ (GFFAttributes.parse (['=', 'x'])).nokeys = [['x']]
    ∧ (GFFAttributes.parse (['=', 'x'])).get [] = Option.none := by
  refine ⟨by decide, by decide, by decide⟩

/-- C5 (amended): parsing splits on `;` and, for every non-empty
segment: if the segment contains `=` *and the stripped text before the
first `=` is nonempty*, that text becomes the key and the stripped,
percent-decoded text after the `=` becomes the stored value — when a
key repeats, the later occurrence's value overwrites the earlier value
while the key keeps the earlier occurrence's position; if the segment
contains no `=` — or its stripped key is empty — the stripped,
percent-decoded remainder is appended to the bare-token sequence. -/
theorem parse_characterization (s : Str) :
    (GFFAttributes.parse s).keys
      = firstDedup (((splitOnChar ';' s).filterMap segKV).map Prod.fst)
    ∧ (GFFAttributes.parse s).nokeys = (splitOnChar ';' s).filterMap segBare
    ∧ ∀ k, (GFFAttributes.parse s).get k
        = lastVal ((splitOnChar ';' s).filterMap segKV) k := by
  by_cases hs : s = []
  · subst hs
    exact ⟨by decide, by decide, fun k => rfl⟩
  · refine ⟨?_, ?_, ?_⟩
    · rw [parse_eq_fold hs, keys_with_trailing]
      exact foldl_parseItem_keys {} (splitOnChar ';' s)
    · rw [parse_eq_fold hs, nokeys_with_trailing]
      have h := foldl_parseItem_nokeys {} (splitOnChar ';' s)
      simpa using h
    · intro k
      rw [parse_eq_fold hs, get_with_trailing]
      rw [foldl_parseItem_get {} (splitOnChar ';' s) k]
      unfold lastVal
      cases ((splitOnChar ';' s).filterMap segKV).filter (fun p => p.1 = k) |>.getLast?
        <;> rfl

/-! ## Claim C6: empty input and the trailing semicolon -/

/-- C6 counterexample: the attribute string `";"` ends with `;` and the
flag is recorded, but it parses to no tokens at all, so serialization
joins a single empty item and yields the empty string — the trailing
`;` is *not* re-emitted. -/
theorem trailing_semicolon_lost_without_tokens :
    GFFAttributes.repr (GFFAttributes.parse [';']) = []
    ∧ (GFFAttributes.parse [';']).trailing_semicolon = true := by
  refine ⟨by decide, by decide⟩

/-- C6 (amended): the empty attribute string parses to no keyed and no
bare tokens; appending `';'` to any attribute string sets the
trailing-separator flag without changing the parsed keys or bare
tokens (no empty bare token is manufactured); and serialization
re-emits the trailing `;` *provided at least one token was parsed* —
for a token-free string such as `";"` the serialization is empty. -/
theorem empty_and_trailing_semicolon :
    (GFFAttributes.parse []).keys = []
    ∧ (GFFAttributes.parse []).nokeys = []
    ∧ (GFFAttributes.parse []).trailing_semicolon = false
    ∧ ∀ s : Str,
        (GFFAttributes.parse (s ++ [';'])).trailing_semicolon = true
        ∧ (GFFAttributes.parse (s ++ [';'])).nokeys = (GFFAttributes.parse s).nokeys
        ∧ (GFFAttributes.parse (s ++ [';'])).keys = (GFFAttributes.parse s).keys
        ∧ ((GFFAttributes.parse (s ++ [';'])).keys ≠ []
            ∨ (GFFAttributes.parse (s ++ [';'])).nokeys ≠ [] →
            pyEndsWith (GFFAttributes.repr (GFFAttributes.parse (s ++ [';']))) ';' = true) := by
  refine ⟨rfl, rfl, rfl, ?_⟩
  intro s
  have hne : s ++ [';'] ≠ [] := by simp
  have hsplit : splitOnChar ';' (s ++ [';']) = splitOnChar ';' s ++ [[]] :=
    splitOnChar_append_sep ';' s
  have hfold : (splitOnChar ';' (s ++ [';'])).foldl GFFAttributes.parseItem {}
      = (splitOnChar ';' s).foldl GFFAttributes.parseItem ({} : GFFAttributes) := by
    rw [hsplit, List.foldl_append]
    rfl
  have htrail : (GFFAttributes.parse (s ++ [';'])).trailing_semicolon = true := by
    rw [parse_eq_fold hne]
    show pyEndsWith (s ++ [';']) ';' = true
    unfold pyEndsWith
    rw [List.getLast?_concat]
    simp
  refine ⟨htrail, ?_, ?_, ?_⟩
  · rw [parse_eq_fold hne, nokeys_with_trailing, hfold]
    by_cases hs : s = []
    · subst hs
      decide
    · rw [parse_eq_fold hs, nokeys_with_trailing]
  · rw [parse_eq_fold hne, keys_with_trailing, hfold]
    by_cases hs : s = []
    · subst hs
      decide
    · rw [parse_eq_fold hs, keys_with_trailing]
  · intro hsome
    unfold GFFAttributes.repr
    have henc : (GFFAttributes.parse (s ++ [';'])).encode_values = PyVal.bool true := by
      rw [parse_eq_fold hne, encode_values_with_trailing]
      exact (foldl_parseItem_flags {} (splitOnChar ';' (s ++ [';']))).1
    rw [henc, htrail]
    simp only [pyTruthy, if_true]
    apply pyEndsWith_joinSep_append_nil
    intro hnil
    rw [List.append_eq_nil] at hnil
    rcases hsome with hk | hn
    · exact hk (List.map_eq_nil_iff.mp hnil.1)
    · exact hn hnil.2

/-- C6 witness: a keyed token followed by the trailing semicolon is
re-emitted ending in `;`. -/
theorem empty_and_trailing_semicolon_witness :
    pyEndsWith (GFFAttributes.repr (GFFAttributes.parse (("ID=x").toList ++ [';']))) ';'
      = true :=
  (empty_and_trailing_semicolon.2.2.2 (("ID=x").toList)).2.2.2 (by decide)

/-! ## Claim C1: the round-trip property -/

/-- Serialize-after-parse restores a canonical segment list exactly:
all keyed canonical segments, then all bare canonical ones, with no
repeated keys, plus the trailing empty piece when the flag is set. -/
theorem roundtrip_core (segs : List Str) (t : Bool)
    (hks : ∀ seg ∈ segs.takeWhile isKeyedSeg, keyedCanonical seg = true)
    (hbs : ∀ seg ∈ segs.dropWhile isKeyedSeg, bareCanonical seg = true)
    (hnd : nodupB ((segs.takeWhile isKeyedSeg).map segKey) = true) :
    GFFAttributes.repr
      { (segs ++ if t then [[]] else []).foldl GFFAttributes.parseItem {} with
        trailing_semicolon := t }
      = joinSep ';' (segs ++ if t then [[]] else []) := by
  set KS := segs.takeWhile isKeyedSeg with hKS
  set BS := segs.dropWhile isKeyedSeg with hBS
  set A := (segs ++ if t then [[]] else []).foldl GFFAttributes.parseItem
    ({} : GFFAttributes) with hA
  have hsegs : KS ++ BS = segs := List.takeWhile_append_dropWhile isKeyedSeg segs
  have hoptKV : (if t then [[]] else ([] : List Str)).filterMap segKV = [] := by
    cases t <;> rfl
  have hoptB : (if t then [[]] else ([] : List Str)).filterMap segBare = [] := by
    cases t <;> rfl
  have hKVks : KS.filterMap segKV = KS.map fun seg => (segKey seg, segValue seg) :=
    filterMap_eq_map_of_forall fun seg hseg => (keyedCanonical_spec (hks seg hseg)).1
  have hKVbs : BS.filterMap segKV = [] :=
    filterMap_eq_nil_of_forall fun seg hseg => (bareCanonical_spec (hbs seg hseg)).1
  have hBks : KS.filterMap segBare = [] :=
    filterMap_eq_nil_of_forall fun seg hseg => (keyedCanonical_spec (hks seg hseg)).2.1
  have hBbs : BS.filterMap segBare = BS := by
    have hmap := filterMap_eq_map_of_forall (g := fun seg => seg)
      (l := BS) fun seg hseg => (bareCanonical_spec (hbs seg hseg)).2.1
    rw [hmap]
    exact List.map_id' BS
  have hasgn : (segs ++ if t then [[]] else []).filterMap segKV
      = KS.map fun seg => (segKey seg, segValue seg) := by
    rw [List.filterMap_append, hoptKV, List.append_nil, ← hsegs,
      List.filterMap_append, hKVks, hKVbs, List.append_nil]
  have hnokeys0 : (segs ++ if t then [[]] else []).filterMap segBare = BS := by
    rw [List.filterMap_append, hoptB, List.append_nil, ← hsegs,
      List.filterMap_append, hBks, hBbs, List.nil_append]
  have hcomp : (Prod.fst ∘ fun seg => (segKey seg, segValue seg)) = segKey := rfl
  have hnodup : (KS.map segKey).Nodup := (nodupB_iff _).mp hnd
  have hkeysA : A.keys = KS.map segKey := by
    rw [hA, foldl_parseItem_keys, hasgn, List.map_map, hcomp]
    have hfi := foldl_insertNew_eq_append (KS.map segKey) hnodup []
      (by intro x _; simp)
    simpa using hfi
  have hnokeysA : A.nokeys = BS := by
    rw [hA, foldl_parseItem_nokeys, hnokeys0]
    rfl
  have hgetA : ∀ seg ∈ KS, A.get (segKey seg) = some (segValue seg) := by
    intro seg hseg
    rw [hA, foldl_parseItem_get, hasgn]
    have hnd2 : ((KS.map fun seg => (segKey seg, segValue seg)).map Prod.fst).Nodup := by
      rw [List.map_map, hcomp]
      exact hnodup
    rw [getLast?_filter_of_nodup hnd2
      (List.mem_map_of_mem (fun seg => (segKey seg, segValue seg)) hseg)]
    rfl
  have hencA : A.encode_values = PyVal.bool true :=
    (foldl_parseItem_flags {} (segs ++ if t then [[]] else [])).1
  have hper : ∀ seg ∈ KS,
      segKey seg ++ '=' ::
        ({ A with trailing_semicolon := t }).escape_value (segKey seg)
          ((({ A with trailing_semicolon := t }).get (segKey seg)).getD [])
      = seg := by
    intro seg hseg
    have hg : ({ A with trailing_semicolon := t }).get (segKey seg)
        = some (segValue seg) := by
      rw [get_with_trailing]
      exact hgetA seg hseg
    rw [hg]
    simp only [Option.getD_some]
    rw [escape_value_eq_quote _ _ _ hg]
    exact (keyedCanonical_spec (hks seg hseg)).2.2.2
  have hitems : (({ A with trailing_semicolon := t }).keys.map fun k =>
        k ++ '=' ::
          ({ A with trailing_semicolon := t }).escape_value k
            ((({ A with trailing_semicolon := t }).get k).getD []))
      = KS := by
    rw [keys_with_trailing, hkeysA, List.map_map]
    have hcg : KS.map ((fun k =>
        k ++ '=' ::
          ({ A with trailing_semicolon := t }).escape_value k
            ((({ A with trailing_semicolon := t }).get k).getD [])) ∘ segKey)
        = KS.map (fun seg => seg) :=
      List.map_congr_left fun seg hseg => hper seg hseg
    rw [hcg]
    exact List.map_id' KS
  have henc' : pyTruthy ({ A with trailing_semicolon := t }).encode_values = true := by
    rw [encode_values_with_trailing, hencA]
    rfl
  unfold GFFAttributes.repr
  rw [henc']
  simp only [if_true]
  rw [hitems, nokeys_with_trailing, hnokeysA, hsegs]
  cases t
  · simp
  · simp

/-- C1 counterexample: `"ID=a%62"` contains no repeated key, yet
parsing decodes `%62` to the safe character `b`, which serialization
does not re-escape: the round trip returns `"ID=ab"`, not the original
string. -/
theorem roundtrip_fails_on_noncanonical_escape :
    GFFAttributes.repr (GFFAttributes.parse (("ID=a%62").toList)) = ("ID=ab").toList
    ∧ ("ID=ab").toList ≠ ("ID=a%62").toList := by
  refine ⟨by decide, by decide⟩

/-- C1 (amended): `serialize(parse(s)) = s` holds with the default
encoding flag for every *canonical* attribute string: no repeated
keys, every keyed segment before every bare segment, no empty segment
other than the one a trailing `;` produces, keys and values free of
surrounding whitespace, keyed values canonically percent-encoded for
their key's safe alphabet, and bare segments free of percent escapes.
On other strings parsing is lossy (see the counterexample). -/
theorem roundtrip_canonical (s : Str) (h : canonAttr s = true) :
    GFFAttributes.repr (GFFAttributes.parse s) = s := by
  by_cases hs : s = []
  · subst hs
    rfl
  · unfold canonAttr at h
    simp only [Bool.and_eq_true, List.all_eq_true] at h
    obtain ⟨⟨hks, hbs⟩, hnd⟩ := h
    rw [parse_eq_fold hs]
    cases hT : pyEndsWith s ';' with
    | false =>
      rw [hT, if_neg (by simp)] at hks hbs hnd
      have hcore := roundtrip_core (splitOnChar ';' s) false hks hbs hnd
      simp only [Bool.false_eq_true, if_false, List.append_nil] at hcore
      rw [hcore, joinSep_splitOnChar]
    | true =>
      rw [hT, if_pos rfl] at hks hbs hnd
      have hdec : s.dropLast ++ [';'] = s := pyEndsWith_decomp hT
      have hsp : splitOnChar ';' s = splitOnChar ';' s.dropLast ++ [[]] := by
        conv_lhs => rw [← hdec]
        exact splitOnChar_append_sep ';' s.dropLast
      have hdl : (splitOnChar ';' s).dropLast = splitOnChar ';' s.dropLast := by
        rw [hsp]
        exact List.dropLast_concat ..
      rw [hdl] at hks hbs hnd
      have hcore := roundtrip_core (splitOnChar ';' s.dropLast) true hks hbs hnd
      rw [if_pos rfl] at hcore
      rw [hsp, hcore, ← splitOnChar_append_sep, hdec, joinSep_splitOnChar]

/-- C1 witness: a canonical attribute string with a multivalued
comma-bearing value, a percent-escaped comma under an ordinary key, a
bare token and a trailing semicolon round-trips exactly. -/
theorem roundtrip_canonical_witness :
    GFFAttributes.repr
        (GFFAttributes.parse (("ID=abc;Parent=x,y;note=a%2Cb;589008-589009;").toList))
      = ("ID=abc;Parent=x,y;note=a%2Cb;589008-589009;").toList :=
  roundtrip_canonical (("ID=abc;Parent=x,y;note=a%2Cb;589008-589009;").toList)
    (by decide)

end GFFUtils
